import Mathlib

/-!
Shallow embedding of `src/main.rs` of mitch292/arborist: an interactive
terminal tool that lists local git branches (excluding `master`), sorted by
commit local time, and lets the user keep/delete each one.

Modelling conventions:
- `git2::Oid` is a `String` (the 40-hex commit id); `chrono::NaiveDateTime`
  is an `Int` counting civil seconds since the epoch, so that
  `NaiveDateTime::from_timestamp(s, 0) + Duration::minutes(m)` becomes
  `s + 60 * m`.
- The byte stream from `stdin` is a `List Char` of successfully read bytes
  (`char::from(byte)` in the source); an exhausted list models
  `stdin.next() = None` (end of input). Read errors (`byte?`) are not
  modelled; no claim mentions them.
- Terminal output is a list of abstract `OutEvent`s (one per `write!` of a
  logical line or prompt); colors/attributes are presentation only.
- Fallible Rust functions returning `Result<T, Error>` become
  `Except Err T`. Divergence (the unbounded recursion of
  `get_branch_action_from_user` when input is exhausted) is modelled by
  `Option`: `none` means the code loops forever re-prompting.
- `branch.delete()` is modelled as always succeeding; repository mutation
  failure is outside the claims considered here.
-/

deriving instance DecidableEq for Except

namespace Arborist

/-- Tip-commit data the gateway exposes: `commit.id()`, `commit.time().seconds()`
and `commit.time().offset_minutes()` in `src/main.rs` (`get_branches`). -/
structure Commit where
  id : String
  seconds : Int
  offsetMinutes : Int
deriving DecidableEq

/-- The `Error` enum of `src/main.rs` (the `thiserror` variants), with the
transparent wrappers collapsed to their kind. -/
inductive Err where
  | gitError (msg : String)
  | fromUtf8Error
  | ioError
  | crosstermError
  | invalidInput (c : Char)
deriving DecidableEq

/-- Display of `Error`: the only variant with its own format string is
`InvalidInput` (`"Invalid input, Don\'t know what \'{0}\' means"`); the
transparent variants delegate to the wrapped error, modelled here by a
fixed placeholder per kind. -/
def errMsg : Err → String
  | .gitError m => m
  | .fromUtf8Error => "invalid utf-8 sequence"
  | .ioError => "io error"
  | .crosstermError => "crossterm error"
  | .invalidInput c => "Invalid input, Don\'t know what \'" ++ c.toString ++ "\' means"

/-- The `BranchAction` enum of `src/main.rs`. -/
inductive BranchAction where
  | keep
  | delete
  | quit
deriving DecidableEq

/-- `impl TryFrom<char> for BranchAction` in `src/main.rs`: `'k'` keeps,
`'d'` deletes, `'q'` quits, anything else is `Error::InvalidInput(value)`.
The Rust `match` on the character literals is transcribed as a chain of
equality tests. -/
def BranchAction.tryFrom (value : Char) : Except Err BranchAction :=
  if value = 'k' then .ok .keep
  else if value = 'd' then .ok .delete
  else if value = 'q' then .ok .quit
  else .error (.invalidInput value)

/-- The `Branch` struct of `src/main.rs` (minus the live `git2::Branch`
handle, which only supports `delete` and carries no further data). -/
structure Branch where
  id : String
  time : Int
  name : String
  isHead : Bool
deriving DecidableEq

/-- `chrono` model: `NaiveDateTime::from_timestamp(secs, 0)` as civil
seconds. -/
def naiveFromTimestamp (secs : Int) : Int :=
  secs

/-- `chrono` model: `Duration::minutes(m)` measured in seconds. -/
def durationMinutes (m : Int) : Int :=
  60 * m

/-- One entry yielded by `repo.branches(Some(BranchType::Local))`, as the
closure in `get_branches` consumes it: the branch name
(`String::from_utf8(branch.name_bytes()?.to_vec())?`, which can fail with a
git error or a UTF-8 error), the tip commit
(`branch.get().peel_to_commit()?`, which can fail with a git error), and
`branch.is_head()`. -/
structure RawEntry where
  name : Except Err String
  tip : Except Err Commit
  isHead : Bool
deriving DecidableEq

/-- The body of the `map` closure in `get_branches`: resolve the name, peel
to the tip commit, and build the descriptor with
`time = NaiveDateTime::from_timestamp(seconds, 0) + Duration::minutes(offset_minutes)`. -/
def mkBranch (entry : RawEntry) : Except Err Branch :=
  match entry.name with
  | .error e => .error e
  | .ok name =>
    match entry.tip with
    | .error e => .error e
    | .ok commit =>
      .ok { id := commit.id,
            time := naiveFromTimestamp commit.seconds + durationMinutes commit.offsetMinutes,
            name := name, isHead := entry.isHead }

/-- `collect::<Result<Vec<_>>>()`: the first error short-circuits, otherwise
all payloads are gathered in order. -/
def collectResults : List (Except Err α) → Except Err (List α)
  | [] => .ok []
  | x :: xs =>
    match x with
    | .error e => .error e
    | .ok a =>
      match collectResults xs with
      | .error e => .error e
      | .ok as => .ok (a :: as)

/-- The `filter` closure in `get_branches`: an `Ok` branch passes iff its
name is not `"master"`; `Err` items always pass (so the error still reaches
`collect`). -/
def keepBranch : Except Err Branch → Bool
  | .ok b => b.name != "master"
  | .error _ => true

/-- Key order used by `sort_unstable_by_key(|branch| branch.time)`. -/
def byTime (a b : Branch) : Prop :=
  a.time ≤ b.time

instance : DecidableRel byTime := fun a b =>
  inferInstanceAs (Decidable (a.time ≤ b.time))

instance : IsTotal Branch byTime :=
  ⟨fun a b => Int.le_total a.time b.time⟩

instance : IsTrans Branch byTime :=
  ⟨fun _ _ _ h₁ h₂ => le_trans h₁ h₂⟩

/-- `get_branches` in `src/main.rs`: enumerate local branches (the outer
`repo.branches(...)?` and each inner `branch?` can fail, hence the nested
`Except`), map each entry through the descriptor-building closure, filter
out `"master"`, collect (fail-fast), and sort by commit time. The sort is
modelled by `List.insertionSort` on the same key order; the claims below
depend only on sortedness and membership, which any comparison sort
guarantees. -/
def getBranches (enumeration : Except Err (List (Except Err RawEntry))) :
    Except Err (List Branch) :=
  match enumeration with
  | .error e => .error e
  | .ok items =>
    match collectResults ((items.map fun item => item.bind mkBranch).filter keepBranch) with
    | .error e => .error e
    | .ok branches => .ok (List.insertionSort byTime branches)

/-- Abstract terminal output events, one per logical `write!` in the
source. Styling (color, dim, bold) is dropped as presentation. -/
inductive OutEvent where
  | noBranches
  | infoIgnoring (name : String)
  | prompt (name : String) (idShort : String) (time : Int)
  | echo (c : Char)
  | blank
  | helpHeader
  | helpKeep
  | helpDelete
  | helpQuit
  | helpShow
  | deletedMsg (name : String) (id : String)
deriving DecidableEq

/-- The prompt line `get_branch_action_from_user` renders: branch name, the
first 10 characters of the commit id (`&branch.id.to_string()[0..10]`), and
the commit time, followed by the `(k/d/q/?)` legend. -/
def promptEv (b : Branch) : OutEvent :=
  .prompt b.name (b.id.take 10) b.time

/-- The help legend printed on `?`: a blank line, the header, one line per
command, and a closing blank line. -/
def helpBlock : List OutEvent :=
  [.blank, .helpHeader, .helpKeep, .helpDelete, .helpQuit, .helpShow, .blank]

/-- Outcome of one pass of `get_branch_action_from_user` up to (and
including) its tail call decision: either a terminal result for the branch
(`BranchAction::try_from`'s verdict) or another pass on the same branch. -/
inductive PromptOutcome where
  | action (result : Except Err BranchAction) (out : List OutEvent) (rest : List Char)
  | again (out : List OutEvent) (rest : List Char)
deriving DecidableEq

/-- One pass of `get_branch_action_from_user` in `src/main.rs`: print the
prompt, flush, read one byte. If `stdin.next()` is `None` the function
recurses with nothing consumed (`again` with the input unchanged); on `?`
it echoes, prints the help block and recurses; on any other character it
echoes and returns `BranchAction::try_from(c)`. -/
def promptStep (b : Branch) : List Char → PromptOutcome
  | [] => .again [promptEv b] []
  | c :: rest =>
    if c = '?' then
      .again ([promptEv b, .echo c] ++ helpBlock) rest
    else
      .action (BranchAction.tryFrom c) ([promptEv b, .echo c]) rest

/-- Full recursion of `get_branch_action_from_user`: iterate `promptStep`
until a terminal character arrives. On exhausted input the Rust code
re-prompts forever (see `promptStep`), which the model records as `none`.
Returns the action verdict, the accumulated output, and the unconsumed
input. -/
def getBranchAction (b : Branch) :
    List Char → Option (Except Err BranchAction × List OutEvent × List Char)
  | [] => none
  | c :: rest =>
    if c = '?' then
      (getBranchAction b rest).map
        (fun r => (r.1, ([promptEv b, .echo c] ++ helpBlock) ++ r.2.1, r.2.2))
    else
      some (BranchAction.tryFrom c, [promptEv b, .echo c], rest)

/-- Observable effect of one `act_on_branch` call (and, by accumulation, of
the whole session loop): the `Result<()>` it returns, the names of branches
deleted, the output written, and the input left unconsumed. -/
structure ActResult where
  res : Except Err Unit
  deleted : List String
  out : List OutEvent
  rest : List Char
deriving DecidableEq

/-- `act_on_branch` in `src/main.rs`. A HEAD branch gets exactly one
informational line and no prompt. Otherwise the user's action is obtained;
an error propagates (`?` operator); `Quit` does `return Ok(())` — which
only leaves this function, with no effect distinguishable from `Keep` at
the call site; `Keep` does nothing; `Delete` deletes the branch and prints
the undo hint. -/
def actOnBranch (b : Branch) (input : List Char) : Option ActResult :=
  if b.isHead then
    some ⟨.ok (), [], [.infoIgnoring b.name], input⟩
  else
    match getBranchAction b input with
    | none => none
    | some (.error e, out, rest) => some ⟨.error e, [], out, rest⟩
    | some (.ok a, out, rest) =>
      match a with
      | .quit => some ⟨.ok (), [], out, rest⟩
      | .keep => some ⟨.ok (), [], out, rest⟩
      | .delete => some ⟨.ok (), [b.name], out ++ [.deletedMsg b.name b.id], rest⟩

/-- The `for branch in &mut branches` loop in `main`: run `act_on_branch`
on each branch in order, stopping at the first error (the `?` on the call),
accumulating deletions and output. -/
def runLoop : List Branch → List Char → Option ActResult
  | [], input => some ⟨.ok (), [], [], input⟩
  | b :: bs, input =>
    match actOnBranch b input with
    | none => none
    | some s =>
      match s.res with
      | .error e => some ⟨.error e, s.deleted, s.out, s.rest⟩
      | .ok _ =>
        (runLoop bs s.rest).map
          (fun t => ⟨t.res, s.deleted ++ t.deleted, s.out ++ t.out, t.rest⟩)

/-- The branch-processing part of `main`'s closure, after `get_branches`
succeeded: if the list is empty print the single informational line,
otherwise run the loop. -/
def runSession (branches : List Branch) (input : List Char) : Option ActResult :=
  if branches.isEmpty then
    some ⟨.ok (), [], [.noBranches], input⟩
  else
    runLoop branches input

/-- `main`'s `match result`: `Ok` exits 0, `Err` exits 1. -/
def exitCode : Except Err Unit → Nat
  | .ok _ => 0
  | .error _ => 1

/-- `main`'s `match result`: on `Err`, `eprintln!("{}", error)` writes the
error's display to the error stream. -/
def stderrOutput : Except Err Unit → Option String
  | .ok _ => none
  | .error e => some (errMsg e)

/-- Boolean error test on `Except`. -/
def isErr : Except Err α → Bool
  | .ok _ => false
  | .error _ => true

/-- One help cycle of output: what a single `?` keystroke produces before
the function re-prompts (which prints `promptEv b` again at the head of the
next cycle). -/
def helpCycle (b : Branch) : List OutEvent :=
  [promptEv b, .echo '?'] ++ helpBlock

/-- Output of `n` consecutive `?` keystrokes on the same branch. -/
def helpCycles (b : Branch) (n : Nat) : List OutEvent :=
  List.flatten (List.replicate n (helpCycle b))

/-- Author-local wall-clock time as the spec words it: the recorded
timestamp in seconds plus the recorded UTC offset in minutes, with no
further conversion. -/
def specLocalTime (c : Commit) : Int :=
  c.seconds + c.offsetMinutes * 60

/-! Concrete material used by witnesses and counterexamples. -/

/-- A 40-hex-character commit id, as `git2::Oid::to_string` yields. -/
def demoId : String :=
  "0123456789abcdef0123456789abcdef01234567"

/-- A non-HEAD branch descriptor. -/
def demoBranch (name : String) (time : Int) : Branch :=
  { id := demoId, time := time, name := name, isHead := false }

/-- A branch descriptor that is the current HEAD. -/
def demoHead : Branch :=
  { id := demoId, time := 400, name := "main-line", isHead := true }

/-- Three non-HEAD branches, ascending by time, as the lister would
produce them. -/
def demoBranches : List Branch :=
  [demoBranch "feature-1" 100, demoBranch "feature-2" 200, demoBranch "feature-3" 300]

/-- A gateway entry that resolves cleanly. -/
def demoEntry (name : String) (secs : Int) (off : Int) : RawEntry :=
  { name := .ok name, tip := .ok { id := demoId, seconds := secs, offsetMinutes := off },
    isHead := false }

/-- A gateway entry whose tip cannot be peeled to a commit. -/
def badEntry : RawEntry :=
  { name := .ok "broken", tip := .error (.gitError "cannot peel to commit"), isHead := false }

/-- A clean enumeration, out of time order and containing `master`. -/
def demoEnum : Except Err (List (Except Err RawEntry)) :=
  .ok [.ok (demoEntry "late" 1000 0), .ok (demoEntry "early" 10 0),
       .ok (demoEntry "master" 500 0)]

/-- An enumeration whose second entry fails to resolve. -/
def demoEnumBad : List (Except Err RawEntry) :=
  [.ok (demoEntry "early" 10 0), .ok badEntry]

end Arborist

namespace Arborist

/-- Claim C1 (code bug): the spec says `q` terminates the entire session
immediately with no further prompts and no deletions, but
`BranchAction::Quit => return Ok(())` in `act_on_branch` only returns from
that function; the `for` loop in `main` continues with the next branch.
Evaluated at three branches with input `q`,`d`,`d`: the two remaining
branches are prompted and deleted and the run still ends `Ok` (exit 0).
With input exactly `q`, the loop does not exit after the first branch but
blocks forever re-prompting the second one (`none`). -/
theorem quit_does_not_end_session :
    runLoop demoBranches ['q', 'd', 'd'] =
      some { res := .ok (), deleted := ["feature-2", "feature-3"],
             out := [.prompt "feature-1" "0123456789" 100, .echo 'q',
                     .prompt "feature-2" "0123456789" 200, .echo 'd',
                     .deletedMsg "feature-2" demoId,
                     .prompt "feature-3" "0123456789" 300, .echo 'd',
                     .deletedMsg "feature-3" demoId],
             rest := [] } ∧
    runLoop demoBranches ['q'] = none := by
  exact ⟨rfl, rfl⟩

/-- Claim C6: a HEAD branch produces exactly one informational line, is
never prompted (no prompt event in the output), consumes no input, and is
never deleted. -/
theorem head_branch_skipped (b : Branch) (input : List Char) (h : b.isHead = true) :
    actOnBranch b input =
      some { res := .ok (), deleted := [], out := [.infoIgnoring b.name], rest := input } := by
  simp [actOnBranch, h]

/-- Claim C6, witness at a concrete HEAD branch and input. -/
theorem head_branch_skipped_witness :
    demoHead.isHead = true ∧
    actOnBranch demoHead ['d', 'q'] =
      some { res := .ok (), deleted := [], out := [.infoIgnoring "main-line"],
             rest := ['d', 'q'] } :=
  ⟨rfl, head_branch_skipped demoHead ['d', 'q'] rfl⟩

/-- Claim C9: when the input stream yields no character, one pass of the
prompting function re-emits the very same prompt with the input state
unchanged (`again`, never an `action`, so end of input is neither quit nor
an error), and the full recursion therefore never returns (`none`). -/
theorem end_of_input_reprompts (b : Branch) :
    promptStep b [] = .again [promptEv b] [] ∧
    (∀ result out rest, promptStep b [] ≠ .action result out rest) ∧
    getBranchAction b [] = none := by
  refine ⟨rfl, ?_, rfl⟩
  intro result out rest h
  exact PromptOutcome.noConfusion h

/-- Claim C10: command recognition is case-sensitive: `K`, `D`, `Q` are
rejected as invalid input, and feeding `K` at a prompt aborts the run with
exit code 1. -/
theorem uppercase_commands_are_invalid :
    BranchAction.tryFrom 'K' = .error (.invalidInput 'K') ∧
    BranchAction.tryFrom 'D' = .error (.invalidInput 'D') ∧
    BranchAction.tryFrom 'Q' = .error (.invalidInput 'Q') ∧
    runLoop [demoBranch "feature-1" 100] ['K'] =
      some { res := .error (.invalidInput 'K'), deleted := [],
             out := [.prompt "feature-1" "0123456789" 100, .echo 'K'], rest := [] } ∧
    exitCode (.error (.invalidInput 'K')) = 1 := by
  exact ⟨rfl, rfl, rfl, rfl, rfl⟩

/-- Claim C3: any character outside `{k,d,q,?}` typed at a prompt is mapped
to `Error::InvalidInput` carrying that exact character; the error
propagates out of the session loop (everything after the offending branch
stays unvisited, nothing is deleted), the process exit code is 1, and the
error-stream message names the character. -/
theorem invalid_input_aborts (c : Char) (h : c ∉ (['k', 'd', 'q', '?'] : List Char))
    (b : Branch) (hb : b.isHead = false) (bs : List Branch) (input : List Char) :
    BranchAction.tryFrom c = .error (.invalidInput c) ∧
    runLoop (b :: bs) (c :: input) =
      some { res := .error (.invalidInput c), deleted := [],
             out := [promptEv b, .echo c], rest := input } ∧
    exitCode (.error (.invalidInput c)) = 1 ∧
    stderrOutput (.error (.invalidInput c)) =
      some ("Invalid input, Don\'t know what \'" ++ c.toString ++ "\' means") := by
  have hk : ¬ c = 'k' := fun e => h (by simp [e])
  have hd : ¬ c = 'd' := fun e => h (by simp [e])
  have hq : ¬ c = 'q' := fun e => h (by simp [e])
  have hh : ¬ c = '?' := fun e => h (by simp [e])
  have htry : BranchAction.tryFrom c = .error (.invalidInput c) := by
    simp [BranchAction.tryFrom, hk, hd, hq]
  refine ⟨htry, ?_, rfl, rfl⟩
  simp [runLoop, actOnBranch, hb, getBranchAction, hh, htry]

/-- Claim C3, witness at the character `x` on a single branch. -/
theorem invalid_input_aborts_witness :
    (('x' : Char) ∉ (['k', 'd', 'q', '?'] : List Char)) ∧
    ((demoBranch "feature-1" 100).isHead = false) ∧
    (BranchAction.tryFrom 'x' = .error (.invalidInput 'x') ∧
      runLoop [demoBranch "feature-1" 100] ['x'] =
        some { res := .error (.invalidInput 'x'), deleted := [],
               out := [promptEv (demoBranch "feature-1" 100), .echo 'x'], rest := [] } ∧
      exitCode (.error (.invalidInput 'x')) = 1 ∧
      stderrOutput (.error (.invalidInput 'x')) =
        some ("Invalid input, Don\'t know what \'" ++ Char.toString 'x' ++ "\' means")) :=
  ⟨by decide, rfl, invalid_input_aborts 'x' (by decide) (demoBranch "feature-1" 100) rfl [] []⟩

/-- Any run of leading `?` keystrokes factors out of the prompting
function: the verdict and the unconsumed input are unchanged, and the
output gains one help cycle per `?`. -/
theorem getBranchAction_replicate (b : Branch) (n : Nat) (input : List Char) :
    getBranchAction b (List.replicate n '?' ++ input) =
      (getBranchAction b input).map (fun r => (r.1, helpCycles b n ++ r.2.1, r.2.2)) := by
  induction n with
  | zero =>
    simp only [List.replicate, List.nil_append, helpCycles, List.flatten_nil]
    cases getBranchAction b input with
    | none => rfl
    | some r => simp
  | succ n ih =>
    rw [List.replicate_succ, List.cons_append]
    rw [show getBranchAction b ('?' :: (List.replicate n '?' ++ input)) =
        (getBranchAction b (List.replicate n '?' ++ input)).map
          (fun r => (r.1, ([promptEv b, .echo '?'] ++ helpBlock) ++ r.2.1, r.2.2)) from by
      simp [getBranchAction]]
    rw [ih, Option.map_map]
    cases getBranchAction b input with
    | none => rfl
    | some r =>
      simp [helpCycles, helpCycle, List.replicate_succ, Function.comp, List.append_assoc]

/-- Claim C2: for a non-HEAD branch, feeding any number of `?` keystrokes
before the rest of the input leaves the whole per-branch outcome unchanged
(same verdict, same deletions — none added — and same unconsumed input),
except that the output is prefixed with one help cycle per `?`; each help
cycle re-displays the same branch's prompt. -/
theorem help_loops_same_branch (b : Branch) (hb : b.isHead = false) (n : Nat)
    (input : List Char) :
    actOnBranch b (List.replicate n '?' ++ input) =
      (actOnBranch b input).map (fun r => { r with out := helpCycles b n ++ r.out }) ∧
    promptEv b ∈ helpCycle b := by
  refine ⟨?_, by simp [helpCycle]⟩
  simp only [actOnBranch, hb, Bool.false_eq_true, if_false,
    getBranchAction_replicate b n input]
  cases getBranchAction b input with
  | none => rfl
  | some r =>
    obtain ⟨res, out, rest⟩ := r
    cases res with
    | error e => rfl
    | ok a => cases a <;> simp [List.append_assoc]

/-- Claim C2, witness: two `?` keystrokes then `d` on a concrete branch. -/
theorem help_loops_same_branch_witness :
    ((demoBranch "feature-1" 100).isHead = false) ∧
    (actOnBranch (demoBranch "feature-1" 100) (List.replicate 2 '?' ++ ['d']) =
      (actOnBranch (demoBranch "feature-1" 100) ['d']).map
        (fun r => { r with out := helpCycles (demoBranch "feature-1" 100) 2 ++ r.out }) ∧
    promptEv (demoBranch "feature-1" 100) ∈ helpCycle (demoBranch "feature-1" 100)) :=
  ⟨rfl, help_loops_same_branch (demoBranch "feature-1" 100) rfl 2 ['d']⟩

/-- If `collectResults` succeeds, every element of its output occurs as an
`ok` item of its input. -/
theorem collectResults_mem {α : Type} {xs : List (Except Err α)} {l : List α}
    (h : collectResults xs = .ok l) {a : α} (ha : a ∈ l) : Except.ok a ∈ xs := by
  induction xs generalizing l with
  | nil =>
    simp only [collectResults] at h
    injection h with h
    subst h
    simp at ha
  | cons x xs ih =>
    cases x with
    | error e => simp [collectResults] at h
    | ok b =>
      simp only [collectResults] at h
      cases hc : collectResults xs with
      | error e => rw [hc] at h; simp at h
      | ok bs =>
        rw [hc] at h
        injection h with h
        subst h
        rcases List.mem_cons.mp ha with rfl | ha2
        · exact List.mem_cons_self _ _
        · exact List.mem_cons_of_mem _ (ih hc ha2)

/-- `collectResults` fails whenever any input item is an error. -/
theorem collectResults_isErr {α : Type} {xs : List (Except Err α)}
    (h : ∃ x ∈ xs, isErr x = true) : isErr (collectResults xs) = true := by
  induction xs with
  | nil => simp at h
  | cons x xs ih =>
    rcases h with ⟨y, hy, hyerr⟩
    rcases List.mem_cons.mp hy with rfl | hmem
    · cases y with
      | error e => simp [collectResults, isErr]
      | ok a => simp [isErr] at hyerr
    · cases x with
      | error e => simp [collectResults, isErr]
      | ok a =>
        have hxs := ih ⟨y, hmem, hyerr⟩
        simp only [collectResults]
        cases hc : collectResults xs with
        | error e => simp [isErr]
        | ok bs => rw [hc] at hxs; simp [isErr] at hxs

/-- Claim C4: whenever the branch lister succeeds, the returned sequence is
sorted non-decreasing by commit local time. -/
theorem branches_sorted (enumeration : Except Err (List (Except Err RawEntry)))
    (l : List Branch) (h : getBranches enumeration = .ok l) :
    l.Sorted byTime := by
  cases enumeration with
  | error e => simp [getBranches] at h
  | ok items =>
    simp only [getBranches] at h
    cases hc : collectResults ((items.map fun item => item.bind mkBranch).filter keepBranch) with
    | error e => rw [hc] at h; simp at h
    | ok bs =>
      rw [hc] at h
      injection h with h
      exact h ▸ List.sorted_insertionSort byTime bs

/-- Claim C4, witness: a concrete enumeration given out of time order comes
back sorted ascending. -/
theorem branches_sorted_witness :
    getBranches demoEnum =
      .ok [{ id := demoId, time := 10, name := "early", isHead := false },
           { id := demoId, time := 1000, name := "late", isHead := false }] ∧
    List.Sorted byTime
      [{ id := demoId, time := 10, name := "early", isHead := false },
       { id := demoId, time := 1000, name := "late", isHead := false }] :=
  ⟨rfl, branches_sorted demoEnum _ rfl⟩

/-- Claim C5: a branch named `master` never appears in a successful
listing, whatever its timestamp, position, or HEAD status. -/
theorem master_excluded (enumeration : Except Err (List (Except Err RawEntry)))
    (l : List Branch) (h : getBranches enumeration = .ok l) :
    ∀ b ∈ l, b.name ≠ "master" := by
  intro b hb
  cases enumeration with
  | error e => simp [getBranches] at h
  | ok items =>
    simp only [getBranches] at h
    cases hc : collectResults ((items.map fun item => item.bind mkBranch).filter keepBranch) with
    | error e => rw [hc] at h; simp at h
    | ok bs =>
      rw [hc] at h
      injection h with h
      subst h
      have hbs : b ∈ bs := (List.perm_insertionSort byTime bs).mem_iff.mp hb
      have hmem := collectResults_mem hc hbs
      have hkeep : keepBranch (Except.ok b) = true := List.of_mem_filter hmem
      simpa [keepBranch, bne_iff_ne] using hkeep

/-- Claim C5, witness: the enumeration contains a `master` entry and the
result omits it. -/
theorem master_excluded_witness :
    getBranches demoEnum =
      .ok [{ id := demoId, time := 10, name := "early", isHead := false },
           { id := demoId, time := 1000, name := "late", isHead := false }] ∧
    ∀ b ∈ [({ id := demoId, time := 10, name := "early", isHead := false } : Branch),
           { id := demoId, time := 1000, name := "late", isHead := false }],
      b.name ≠ "master" :=
  ⟨rfl, master_excluded demoEnum _ rfl⟩

/-- Claim C7: a successfully built descriptor's `time` is the tip commit's
recorded seconds plus its recorded UTC offset in minutes — the author's
local wall-clock time, with no further conversion. -/
theorem commit_time_is_author_local (entry : RawEntry) (b : Branch)
    (h : mkBranch entry = .ok b) :
    ∃ c, entry.tip = .ok c ∧ b.time = specLocalTime c := by
  cases hn : entry.name with
  | error e => simp [mkBranch, hn] at h
  | ok name =>
    cases ht : entry.tip with
    | error e => simp [mkBranch, hn, ht] at h
    | ok c =>
      refine ⟨c, rfl, ?_⟩
      simp only [mkBranch, hn, ht] at h
      injection h with h
      subst h
      simp [naiveFromTimestamp, durationMinutes, specLocalTime]
      ring

/-- Claim C7, witness: seconds 1000 at offset +90 minutes yields local time
6400. -/
theorem commit_time_is_author_local_witness :
    mkBranch (demoEntry "tz" 1000 90) =
      .ok { id := demoId, time := 6400, name := "tz", isHead := false } ∧
    ∃ c, (demoEntry "tz" 1000 90).tip = .ok c ∧
      ({ id := demoId, time := 6400, name := "tz", isHead := false } : Branch).time =
        specLocalTime c :=
  ⟨rfl, commit_time_is_author_local (demoEntry "tz" 1000 90) _ rfl⟩

/-- Claim C8: if any enumerated branch fails to resolve (the entry itself
is an error, its name is not valid UTF-8, or its tip cannot be peeled),
the whole listing fails: the result is an error and never a descriptor
list; an enumeration-level error likewise returns that error unchanged. -/
theorem listing_fails_fast (items : List (Except Err RawEntry))
    (h : ∃ x ∈ items, isErr (x.bind mkBranch) = true) :
    isErr (getBranches (.ok items)) = true ∧
    (∀ l, getBranches (.ok items) ≠ .ok l) ∧
    (∀ e, getBranches (.error e) = .error e) := by
  have herr : isErr (getBranches (.ok items)) = true := by
    rcases h with ⟨x, hx, hxe⟩
    have hkeep : keepBranch (x.bind mkBranch) = true := by
      cases hb : x.bind mkBranch with
      | error e => simp [keepBranch]
      | ok b => rw [hb] at hxe; simp [isErr] at hxe
    have hmemfil : x.bind mkBranch ∈
        (items.map fun item => item.bind mkBranch).filter keepBranch :=
      List.mem_filter.mpr ⟨List.mem_map_of_mem _ hx, hkeep⟩
    have hcol := collectResults_isErr ⟨_, hmemfil, hxe⟩
    simp only [getBranches]
    cases hc : collectResults ((items.map fun item => item.bind mkBranch).filter keepBranch) with
    | error e => simp [isErr]
    | ok bs => rw [hc] at hcol; simp [isErr] at hcol
  refine ⟨herr, ?_, fun e => rfl⟩
  intro l hl
  rw [hl] at herr
  simp [isErr] at herr

/-- Claim C8, witness: an enumeration whose second entry cannot be peeled
makes the whole listing fail. -/
theorem listing_fails_fast_witness :
    (∃ x ∈ demoEnumBad, isErr (x.bind mkBranch) = true) ∧
    (isErr (getBranches (.ok demoEnumBad)) = true ∧
      (∀ l, getBranches (.ok demoEnumBad) ≠ .ok l) ∧
      (∀ e, getBranches (.error e) = .error e)) :=
  ⟨⟨.ok badEntry, by simp [demoEnumBad], rfl⟩,
    listing_fails_fast demoEnumBad ⟨.ok badEntry, by simp [demoEnumBad], rfl⟩⟩

end Arborist
